import Mathlib

/-!
Verification of the set-matching and detection-filtering core of the
owl-vit-object-detection repository (`src/models.py`), shallowly embedded
over rational arithmetic.

Embedding conventions:
* Tensors of box coordinates and logits become Lean functions or lists of
  rationals; elementwise/broadcast tensor operations become the
  corresponding per-entry formulas.
* The softmax's exponential is abstracted as a parameter `E : ℚ → ℚ`, since
  the claims under verification do not depend on the analytic properties of
  `exp`, only on the softmax's structure.
* Fallible code (Python `assert`, index errors) is embedded with `Option`:
  `none` is a raised error.
* `scipy.optimize.linear_sum_assignment` and `torchvision.ops.nms` are
  external library calls; they are embedded by executable reference
  implementations of their documented contracts (brute-force minimal-cost
  assignment with deterministic tie-break; greedy score-descending
  class-agnostic suppression).
-/

/-- Axis-aligned bounding box in corner format `[x0, y0, x1, y1]`. -/
structure Box where
  x0 : ℚ
  y0 : ℚ
  x1 : ℚ
  y1 : ℚ
deriving DecidableEq, Inhabited

/-- `box_area`: `(x1 - x0) * (y1 - y0)`. -/
def box_area (b : Box) : ℚ :=
  (b.x1 - b.x0) * (b.y1 - b.y0)

/-- One entry of the intersection matrix of `box_iou`:
width/height are the clamped differences of the max of the left-top corners
and the min of the right-bottom corners. -/
def interVal (a b : Box) : ℚ :=
  max (min a.x1 b.x1 - max a.x0 b.x0) 0 * max (min a.y1 b.y1 - max a.y0 b.y0) 0

/-- One entry of the union matrix of `box_iou`: `area1 + area2 - inter`. -/
def unionVal (a b : Box) : ℚ :=
  box_area a + box_area b - interVal a b

/-- One entry of the iou matrix of `box_iou`: `inter / union`. Division on
`ℚ` is total (`0 / 0 = 0`), whereas the source's floating-point division
yields `NaN` when both boxes have zero area (zero union): theorems whose
truth could depend on that `NaN` route restrict their inputs away from
zero-area pairs. -/
def iouVal (a b : Box) : ℚ :=
  interVal a b / unionVal a b

/-- One entry of the matrix returned by `generalized_box_iou`:
`iou - (area - union) / area` where `area` is the area of the smallest
enclosing box. As in `iouVal`, total `ℚ` division returns `0` at the
zero-area pairs where the source produces `NaN`; theorems about the matcher
keep their inputs away from such pairs. -/
def giouVal (a b : Box) : ℚ :=
  let area := max (max a.x1 b.x1 - min a.x0 b.x0) 0 * max (max a.y1 b.y1 - min a.y0 b.y0) 0
  iouVal a b - (area - unionVal a b) / area

/-- The degeneracy check asserted by `generalized_box_iou` on every box:
`x1 ≥ x0 ∧ y1 ≥ y0`. -/
def boxOk (b : Box) : Bool :=
  decide (b.x0 ≤ b.x1 ∧ b.y0 ≤ b.y1)

/-- `generalized_box_iou(boxes1, boxes2)`: asserts every box of both inputs
satisfies the degeneracy check before any geometric computation (a failed
`assert` is `none`), then returns the `N × M` pairwise GIoU matrix. -/
def generalized_box_iou (boxes1 boxes2 : List Box) : Option (List (List ℚ)) :=
  if boxes1.all boxOk && boxes2.all boxOk then
    some (boxes1.map (fun a => boxes2.map (fun b => giouVal a b)))
  else
    none

/-- Softmax of the length-`n` logit vector `v` at coordinate `k`, with the
exponential abstracted as `E`. -/
def softmaxE (E : ℚ → ℚ) (n : ℕ) (v : ℕ → ℚ) (k : ℕ) : ℚ :=
  E (v k) / ((List.range n).map (fun j => E (v j))).sum

/-- One entry of `torch.cdist(-, -, p=1)` on 4-dimensional box vectors:
the L1 distance between the corner coordinates. -/
def l1Dist (a b : Box) : ℚ :=
  |a.x0 - b.x0| + |a.y0 - b.y0| + |a.x1 - b.x1| + |a.y1 - b.y1|

/-- One ground-truth dict of the `targets` list: `labels` and `boxes`. -/
structure Target where
  labels : List ℕ
  boxes : List Box
deriving Inhabited

/-- `HungarianMatcher.__init__`: stores the three cost weights, and asserts
that not all of them are zero ("all costs cant be 0"); the failed assert is
`none`. -/
def matcherInit (cost_class cost_bbox cost_giou : ℚ) : Option (ℚ × ℚ × ℚ) :=
  if cost_class ≠ 0 ∨ cost_bbox ≠ 0 ∨ cost_giou ≠ 0 then
    some (cost_class, cost_bbox, cost_giou)
  else
    none

/-- Validity of a one-to-one partial matching between `Q` queries and `T`
targets, given as a list of (query, target) index pairs: no query repeats,
no target repeats, all indices in range. -/
def IsMatching (Q T : ℕ) (c : List (ℕ × ℕ)) : Prop :=
  (c.map Prod.fst).Nodup ∧ (c.map Prod.snd).Nodup ∧ ∀ p ∈ c, p.1 < Q ∧ p.2 < T

instance decIsMatching (Q T : ℕ) (c : List (ℕ × ℕ)) : Decidable (IsMatching Q T c) := by
  unfold IsMatching
  infer_instance

/-- Total cost of a list of (query, target) pairs under a cost matrix. -/
def totalCost (cost : ℕ → ℕ → ℚ) (c : List (ℕ × ℕ)) : ℚ :=
  (c.map (fun p => cost p.1 p.2)).sum

/-- All (query, target) index pairs of the `Q × T` grid, in lexicographic
order. -/
def gridPairs (Q T : ℕ) : List (ℕ × ℕ) :=
  (List.range Q).flatMap (fun q => (List.range T).map (fun t => (q, t)))

/-- All one-to-one matchings of size `min Q T`, each listed in lexicographic
order of its pairs. -/
def candidates (Q T : ℕ) : List (List (ℕ × ℕ)) :=
  (List.sublistsLen (min Q T) (gridPairs Q T)).filter
    (fun c => decide (IsMatching Q T c))

/-- Fold selecting a candidate of minimal total cost (the earliest in case
of ties). -/
def pickMin (cost : ℕ → ℕ → ℚ) (c : List (ℕ × ℕ)) (cs : List (List (ℕ × ℕ))) :
    List (ℕ × ℕ) :=
  cs.foldl (fun best c2 => if totalCost cost c2 < totalCost cost best then c2 else best) c

/-- Reference model of `scipy.optimize.linear_sum_assignment` on a `Q × T`
cost matrix: a minimal-total-cost one-to-one matching of size `min Q T`,
chosen deterministically. -/
def linear_sum_assignment (cost : ℕ → ℕ → ℚ) (Q T : ℕ) : List (ℕ × ℕ) :=
  match candidates Q T with
  | [] => []
  | c :: cs => pickMin cost c cs

/-- Per-batch-element prediction data of `HungarianMatcher.forward`:
batch size `B` (`pred_logits.shape[0]`), query count `Q`
(`pred_logits.shape[1]`), class count `nCls` (`pred_logits.shape[2]`,
i.e. `C+1` with background last), the logits, and the predicted boxes. -/
structure MatcherInput where
  B : ℕ
  Q : ℕ
  nCls : ℕ
  logits : ℕ → ℕ → ℕ → ℚ
  pboxes : ℕ → ℕ → Box

/-- `out_prob`: the flattened `[B*Q, nCls]` softmax of the logits; flattened
row `i` is batch element `i / Q`, query `i % Q`. -/
def out_prob (E : ℚ → ℚ) (inp : MatcherInput) (i k : ℕ) : ℚ :=
  softmaxE E inp.nCls (inp.logits (i / inp.Q) (i % inp.Q)) k

/-- `out_bbox`: the flattened `[B*Q, 4]` predicted boxes. -/
def out_bbox (inp : MatcherInput) (i : ℕ) : Box :=
  inp.pboxes (i / inp.Q) (i % inp.Q)

/-- `tgt_ids`: the concatenation of the target labels across the batch. -/
def tgt_ids (targets : List Target) : List ℕ :=
  targets.flatMap Target.labels

/-- `tgt_bbox`: the concatenation of the target boxes across the batch. -/
def tgt_bbox (targets : List Target) : List Box :=
  targets.flatMap Target.boxes

/-- Entry `(i, j)` of the flattened `[B*Q, sum T_b]` cost matrix `C`:
`cost_bbox * cdist + cost_class * (-out_prob[:, tgt_ids]) + cost_giou * (-giou)`. -/
def costFlat (E : ℚ → ℚ) (cc cb cg : ℚ) (inp : MatcherInput) (targets : List Target)
    (i j : ℕ) : ℚ :=
  cb * l1Dist (out_bbox inp i) ((tgt_bbox targets).getD j default)
    + cc * (-(out_prob E inp i ((tgt_ids targets).getD j 0)))
    + cg * (-(giouVal (out_bbox inp i) ((tgt_bbox targets).getD j default)))

/-- Column offset of batch element `b` after `C.split(sizes, -1)`:
the total number of target boxes of the earlier batch elements. -/
def tgtOffset (targets : List Target) (b : ℕ) : ℕ :=
  (((targets.take b).map (fun t => t.boxes.length))).sum

/-- Entry `(q, t)` of the `Q × T_b` cost block `c[b]` handed to the
assignment solver for batch element `b`: row `b*Q + q` of the flattened
matrix restricted to the columns of batch element `b`. -/
def costBlock (E : ℚ → ℚ) (cc cb cg : ℚ) (inp : MatcherInput) (targets : List Target)
    (b q t : ℕ) : ℚ :=
  costFlat E cc cb cg inp targets (b * inp.Q + q) (tgtOffset targets b + t)

/-- The degeneracy checks performed inside `generalized_box_iou` when
`HungarianMatcher.forward` computes the giou cost: every flattened
predicted box and every concatenated target box. -/
def forwardCheck (inp : MatcherInput) (targets : List Target) : Bool :=
  ((List.range (inp.B * inp.Q)).all (fun i => boxOk (out_bbox inp i)))
    && (tgt_bbox targets).all boxOk

/-- `HungarianMatcher.forward`: builds the cost matrix (failing like the
source if a degenerate box trips the `generalized_box_iou` assert), splits
it by target sizes, and solves each batch element's block; indexing `c[i]`
past the batch dimension (when `len(targets) > B`) is an index error,
embedded as `none`. Three source error paths are outside this model and are
instead excluded by hypotheses of the theorems that need them: `torch.cat`
raises on an empty `targets` list, `out_prob[:, tgt_ids]` raises on a label
`≥ nCls`, and a zero-area predicted box paired with a zero-area target box
of the same batch element makes that element's cost block `NaN`, on which
`linear_sum_assignment` raises. -/
def matcherForward (E : ℚ → ℚ) (cc cb cg : ℚ) (inp : MatcherInput)
    (targets : List Target) : Option (List (List (ℕ × ℕ))) :=
  if forwardCheck inp targets && decide (targets.length ≤ inp.B) then
    some ((List.range targets.length).map (fun b =>
      linear_sum_assignment (costBlock E cc cb cg inp targets b) inp.Q
        ((targets.map (fun t => t.boxes.length)).getD b 0)))
  else
    none

/-- One detection row of the post-processing pipeline: its position `idx`
in the input lists, its box and its score. -/
structure Det where
  idx : ℕ
  box : Box
  score : ℚ
deriving DecidableEq

/-- Score-descending comparison used by the NMS sort. -/
def detGe (a b : Det) : Prop :=
  b.score ≤ a.score

instance decDetGe : DecidableRel detGe :=
  fun a b => inferInstanceAs (Decidable (b.score ≤ a.score))

instance totalDetGe : IsTotal Det detGe :=
  ⟨fun a b => le_total b.score a.score⟩

instance transDetGe : IsTrans Det detGe :=
  ⟨fun _ _ _ h1 h2 => le_trans h2 h1⟩

/-- Greedy suppression pass of `torchvision.ops.nms` on a score-descending
detection list: keep the head, drop every remaining detection whose IoU
with it exceeds the threshold, recurse. -/
def suppress (iouThr : ℚ) : List Det → List Det
  | [] => []
  | d :: rest =>
    d :: suppress iouThr (rest.filter (fun e => decide (iouVal d.box e.box ≤ iouThr)))
termination_by l => l.length
decreasing_by
  simp only [List.length_cons]
  exact Nat.lt_succ_of_le (List.length_filter_le _ _)

/-- The detection rows fed to `torchvision.ops.nms`: position, box and
score at every index of the box list. -/
def nmsDets (boxes : List Box) (scores : List ℚ) : List Det :=
  (List.range boxes.length).map (fun i => ⟨i, boxes.getD i default, scores.getD i 0⟩)

/-- Model of `torchvision.ops.nms(boxes, scores, iou_threshold)`: the kept
indices, in descending score order (ties kept in input order). -/
def nms (iouThr : ℚ) (boxes : List Box) (scores : List ℚ) : List ℕ :=
  (suppress iouThr ((nmsDets boxes scores).insertionSort detGe)).map Det.idx

/-- The suppression stage of `PostProcess.__call__` (lines 302-306): run
`nms` on the boxes and scores and gather classes, boxes and scores at the
kept indices. -/
def suppressStep (iouThr : ℚ) (boxes : List Box) (classes : List ℕ) (scores : List ℚ) :
    List Box × List ℕ × List ℚ :=
  let idx := nms iouThr boxes scores
  (idx.map (fun i => boxes.getD i default),
   idx.map (fun i => classes.getD i 0),
   idx.map (fun i => scores.getD i 0))

/-- The non-background softmax row of one query:
`softmax(pred_classes, dim=-1)[:, :-1]`. -/
def queryScores (E : ℚ → ℚ) (nCls : ℕ) (v : ℕ → ℚ) : List ℚ :=
  (List.range (nCls - 1)).map (softmaxE E nCls v)

/-- `torch.max` over one row: the maximum value together with the index of
its first occurrence. -/
def maxWithIdx : List ℚ → ℚ × ℕ
  | [] => (0, 0)
  | [a] => (a, 0)
  | a :: b :: rest =>
    let p := maxWithIdx (b :: rest)
    if a < p.1 then (p.1, p.2 + 1) else (a, 0)

/-- Per-query confidence score: max over the non-background softmax. -/
def qScore (E : ℚ → ℚ) (nCls : ℕ) (v : ℕ → ℚ) : ℚ :=
  (maxWithIdx (queryScores E nCls v)).1

/-- Per-query class: argmax over the non-background softmax. -/
def qClass (E : ℚ → ℚ) (nCls : ℕ) (v : ℕ → ℚ) : ℕ :=
  (maxWithIdx (queryScores E nCls v)).2

/-- The thresholding stage of `PostProcess.__call__`: the query indices
whose score is strictly above the confidence threshold
(`idx = scores > self.confidence_threshold`). -/
def keepIdx (E : ℚ → ℚ) (thr : ℚ) (Q nCls : ℕ) (logits : ℕ → ℕ → ℚ) : List ℕ :=
  (List.range Q).filter (fun q => decide (thr < qScore E nCls (logits q)))

/-- `PostProcess.__call__` on one batch element: per-query scores/classes,
confidence thresholding, then NMS; returns (boxes, classes, scores). -/
def postProcess (E : ℚ → ℚ) (thr iouThr : ℚ) (Q nCls : ℕ) (pboxes : ℕ → Box)
    (logits : ℕ → ℕ → ℚ) : List Box × List ℕ × List ℚ :=
  let keep := keepIdx E thr Q nCls logits
  suppressStep iouThr (keep.map pboxes)
    (keep.map (fun q => qClass E nCls (logits q)))
    (keep.map (fun q => qScore E nCls (logits q)))

/-- Compatibility of two detections under the NMS threshold: their boxes'
IoU does not exceed it. -/
def detCompat (iouThr : ℚ) (a b : Det) : Prop :=
  iouVal a.box b.box ≤ iouThr

/-- Projection of a detection row to the data the NMS decisions depend on:
its box and its score. -/
def projBS (d : Det) : Box × ℚ :=
  (d.box, d.score)

/-- Strict lexicographic order on (query, target) index pairs. -/
def lexLt (p q : ℕ × ℕ) : Prop :=
  p.1 < q.1 ∨ (p.1 = q.1 ∧ p.2 < q.2)

/-- Weak lexicographic order on (query, target) index pairs. -/
def lexLe (p q : ℕ × ℕ) : Prop :=
  p.1 < q.1 ∨ (p.1 = q.1 ∧ p.2 ≤ q.2)

instance decLexLe : DecidableRel lexLe := by
  unfold lexLe
  infer_instance

instance totalLexLe : IsTotal (ℕ × ℕ) lexLe := by
  constructor
  intro a b
  unfold lexLe
  rcases Nat.lt_trichotomy a.1 b.1 with h | h | h
  · exact Or.inl (Or.inl h)
  · rcases Nat.le_total a.2 b.2 with h2 | h2
    · exact Or.inl (Or.inr ⟨h, h2⟩)
    · exact Or.inr (Or.inr ⟨h.symm, h2⟩)
  · exact Or.inr (Or.inl h)

instance transLexLe : IsTrans (ℕ × ℕ) lexLe := by
  constructor
  intro a b c hab hbc
  rcases hab with h | ⟨e1, h1⟩
  · rcases hbc with h' | ⟨e2, _⟩
    · exact Or.inl (h.trans h')
    · exact Or.inl (e2 ▸ h)
  · rcases hbc with h' | ⟨e2, h2⟩
    · exact Or.inl (e1 ▸ h')
    · exact Or.inr ⟨e1.trans e2, h1.trans h2⟩

/-! ### Assignment solver lemmas -/

theorem lexLt_irrefl (a : ℕ × ℕ) : ¬ lexLt a a := by
  rintro (h | ⟨_, h⟩) <;> exact Nat.lt_irrefl _ h

theorem lexLt_trans {a b c : ℕ × ℕ} (hab : lexLt a b) (hbc : lexLt b c) : lexLt a c := by
  rcases hab with h | ⟨e1, h1⟩
  · rcases hbc with h' | ⟨e2, _⟩
    · exact Or.inl (h.trans h')
    · exact Or.inl (e2 ▸ h)
  · rcases hbc with h' | ⟨e2, h2⟩
    · exact Or.inl (e1 ▸ h')
    · exact Or.inr ⟨e1.trans e2, h1.trans h2⟩

theorem lexLe_ne_lt {p q : ℕ × ℕ} (hle : lexLe p q) (hne : p ≠ q) : lexLt p q := by
  rcases hle with h | ⟨e, h⟩
  · exact Or.inl h
  · refine Or.inr ⟨e, lt_of_le_of_ne h ?_⟩
    intro h2
    exact hne (Prod.ext e h2)

theorem mem_gridPairs {Q T : ℕ} {p : ℕ × ℕ} :
    p ∈ gridPairs Q T ↔ p.1 < Q ∧ p.2 < T := by
  unfold gridPairs
  constructor
  · intro h
    rcases List.mem_flatMap.mp h with ⟨q, hq, hp⟩
    rcases List.mem_map.mp hp with ⟨t, ht, he⟩
    rw [← he]
    exact ⟨List.mem_range.mp hq, List.mem_range.mp ht⟩
  · rintro ⟨h1, h2⟩
    refine List.mem_flatMap.mpr ⟨p.1, List.mem_range.mpr h1, ?_⟩
    exact List.mem_map.mpr ⟨p.2, List.mem_range.mpr h2, rfl⟩

theorem gridPairs_succ (Q T : ℕ) :
    gridPairs (Q + 1) T = gridPairs Q T ++ (List.range T).map (fun t => (Q, t)) := by
  unfold gridPairs
  rw [List.range_succ, List.flatMap_append]
  simp

theorem gridPairs_pairwise (Q T : ℕ) : (gridPairs Q T).Pairwise lexLt := by
  induction Q with
  | zero => simp [gridPairs]
  | succ n ih =>
    rw [gridPairs_succ]
    refine List.pairwise_append.mpr ⟨ih, ?_, ?_⟩
    · rw [List.pairwise_map]
      exact (List.sorted_lt_range T).imp (fun h => Or.inr ⟨rfl, h⟩)
    · intro a ha b hb
      rcases List.mem_map.mp hb with ⟨t, _, he⟩
      have h1 : a.1 < n := (mem_gridPairs.mp ha).1
      have h2 : b.1 = n := by rw [← he]
      exact Or.inl (h2 ▸ h1)

/-- A list pairwise-related by a strict order, whose members all lie in a
second pairwise-related list, is a sublist of it. -/
theorem sublist_of_subset_of_pairwise {α : Type} {R : α → α → Prop}
    (hirr : ∀ a, ¬ R a a) (htr : ∀ a b c, R a b → R b c → R a c) :
    ∀ (l2 l1 : List α), l1.Pairwise R → l2.Pairwise R → l1 ⊆ l2 → l1.Sublist l2 := by
  intro l2
  induction l2 with
  | nil =>
    intro l1 _ _ hsub
    rw [List.subset_nil.mp hsub]
  | cons b bs ih =>
    intro l1 h1 h2 hsub
    cases l1 with
    | nil => exact List.nil_sublist _
    | cons a as =>
      by_cases hab : a = b
      · subst hab
        refine List.Sublist.cons₂ _ (ih as h1.of_cons h2.of_cons ?_)
        intro x hx
        rcases List.mem_cons.mp (hsub (List.mem_cons_of_mem _ hx)) with h | h
        · have hax : R a x := (List.pairwise_cons.mp h1).1 x hx
          rw [h] at hax
          exact absurd hax (hirr a)
        · exact h
      · have hax : a ∈ bs := by
          rcases List.mem_cons.mp (hsub (List.mem_cons_self a as)) with h | h
          · exact absurd h hab
          · exact h
        refine List.Sublist.cons _ (ih (a :: as) h1 h2.of_cons ?_)
        intro x hx
        rcases List.mem_cons.mp (hsub hx) with h | h
        · subst h
          rcases List.mem_cons.mp hx with h | h
          · exact absurd h.symm hab
          · have h3 : R a x := (List.pairwise_cons.mp h1).1 x h
            have h4 : R x a := (List.pairwise_cons.mp h2).1 a hax
            exact absurd (htr _ _ _ h3 h4) (hirr a)
        · exact h

theorem pickMin_cons (cost : ℕ → ℕ → ℚ) (c d : List (ℕ × ℕ)) (ds : List (List (ℕ × ℕ))) :
    pickMin cost c (d :: ds)
      = pickMin cost (if totalCost cost d < totalCost cost c then d else c) ds := rfl

theorem pickMin_mem (cost : ℕ → ℕ → ℚ) :
    ∀ (cs : List (List (ℕ × ℕ))) (c), pickMin cost c cs ∈ c :: cs := by
  intro cs
  induction cs with
  | nil => intro c; simp [pickMin]
  | cons d ds ih =>
    intro c
    rw [pickMin_cons]
    by_cases hx : totalCost cost d < totalCost cost c
    · rw [if_pos hx]
      rcases List.mem_cons.mp (ih d) with h | h
      · rw [h]
        exact List.mem_cons_of_mem _ (List.mem_cons_self _ _)
      · exact List.mem_cons_of_mem _ (List.mem_cons_of_mem _ h)
    · rw [if_neg hx]
      rcases List.mem_cons.mp (ih c) with h | h
      · rw [h]
        exact List.mem_cons_self _ _
      · exact List.mem_cons_of_mem _ (List.mem_cons_of_mem _ h)

theorem pickMin_le (cost : ℕ → ℕ → ℚ) :
    ∀ (cs : List (List (ℕ × ℕ))) (c), ∀ x ∈ c :: cs,
      totalCost cost (pickMin cost c cs) ≤ totalCost cost x := by
  intro cs
  induction cs with
  | nil =>
    intro c x hx
    rcases List.mem_cons.mp hx with h | h
    · subst h; simp [pickMin]
    · exact absurd h (List.not_mem_nil x)
  | cons d ds ih =>
    intro c x hx
    rw [pickMin_cons]
    have hcd : totalCost cost (if totalCost cost d < totalCost cost c then d else c)
        ≤ totalCost cost c := by
      by_cases hx2 : totalCost cost d < totalCost cost c
      · rw [if_pos hx2]; exact le_of_lt hx2
      · rw [if_neg hx2]
    have hdd : totalCost cost (if totalCost cost d < totalCost cost c then d else c)
        ≤ totalCost cost d := by
      by_cases hx2 : totalCost cost d < totalCost cost c
      · rw [if_pos hx2]
      · rw [if_neg hx2]; exact le_of_not_lt hx2
    have hres := ih (if totalCost cost d < totalCost cost c then d else c)
    have hself := hres _ (List.mem_cons_self _ _)
    rcases List.mem_cons.mp hx with h | h
    · subst h
      exact le_trans hself hcd
    · rcases List.mem_cons.mp h with h2 | h2
      · subst h2
        exact le_trans hself hdd
      · exact hres x (List.mem_cons_of_mem _ h2)

theorem candidates_sound {Q T : ℕ} {c : List (ℕ × ℕ)} (h : c ∈ candidates Q T) :
    IsMatching Q T c ∧ c.length = min Q T := by
  unfold candidates at h
  have h2 := List.of_mem_filter h
  have h1 := List.mem_of_mem_filter h
  rw [List.mem_sublistsLen] at h1
  exact ⟨of_decide_eq_true h2, h1.2⟩

theorem isMatching_of_perm {Q T : ℕ} {c c2 : List (ℕ × ℕ)} (hp : c2.Perm c)
    (hm : IsMatching Q T c) : IsMatching Q T c2 := by
  obtain ⟨h1, h2, h3⟩ := hm
  refine ⟨((hp.map Prod.fst).nodup_iff).mpr h1, ((hp.map Prod.snd).nodup_iff).mpr h2, ?_⟩
  intro p hpm
  exact h3 p (hp.mem_iff.mp hpm)

theorem exists_mem_candidates (Q T : ℕ) (c : List (ℕ × ℕ))
    (hm : IsMatching Q T c) (hl : c.length = min Q T) :
    ∃ c2 ∈ candidates Q T, c2.Perm c := by
  refine ⟨c.insertionSort lexLe, ?_, List.perm_insertionSort lexLe c⟩
  have hperm : (c.insertionSort lexLe).Perm c := List.perm_insertionSort lexLe c
  have hsorted : (c.insertionSort lexLe).Pairwise lexLe := List.sorted_insertionSort lexLe c
  have hnodupc : c.Nodup := hm.1.of_map
  have hnodup : (c.insertionSort lexLe).Nodup := hperm.nodup_iff.mpr hnodupc
  have hlt : (c.insertionSort lexLe).Pairwise lexLt :=
    (hsorted.and hnodup).imp (fun h => lexLe_ne_lt h.1 h.2)
  have hsub : c.insertionSort lexLe ⊆ gridPairs Q T := by
    intro x hx
    have hxc : x ∈ c := hperm.mem_iff.mp hx
    exact mem_gridPairs.mpr (hm.2.2 x hxc)
  have hsublist := sublist_of_subset_of_pairwise lexLt_irrefl (fun _ _ _ => lexLt_trans)
    (gridPairs Q T) (c.insertionSort lexLe) hlt (gridPairs_pairwise Q T) hsub
  unfold candidates
  refine List.mem_filter.mpr ⟨?_, ?_⟩
  · exact List.mem_sublistsLen.mpr ⟨hsublist, by rw [hperm.length_eq, hl]⟩
  · exact decide_eq_true (isMatching_of_perm hperm hm)

theorem diag_isMatching (Q T : ℕ) :
    IsMatching Q T ((List.range (min Q T)).map (fun i => (i, i))) := by
  refine ⟨?_, ?_, ?_⟩
  · have h : ((List.range (min Q T)).map (fun i => ((i, i) : ℕ × ℕ))).map Prod.fst
        = List.range (min Q T) := by
      rw [List.map_map]
      exact List.map_id _
    rw [h]
    exact List.nodup_range _
  · have h : ((List.range (min Q T)).map (fun i => ((i, i) : ℕ × ℕ))).map Prod.snd
        = List.range (min Q T) := by
      rw [List.map_map]
      exact List.map_id _
    rw [h]
    exact List.nodup_range _
  · intro p hp
    rcases List.mem_map.mp hp with ⟨i, hi, he⟩
    have hilt := List.mem_range.mp hi
    rw [← he]
    exact ⟨lt_of_lt_of_le hilt (Nat.min_le_left _ _),
           lt_of_lt_of_le hilt (Nat.min_le_right _ _)⟩

theorem candidates_ne_nil (Q T : ℕ) : candidates Q T ≠ [] := by
  obtain ⟨c2, hc2, _⟩ := exists_mem_candidates Q T ((List.range (min Q T)).map (fun i => (i, i)))
    (diag_isMatching Q T) (by rw [List.length_map, List.length_range])
  exact List.ne_nil_of_mem hc2

/-- Full specification of the assignment-solver model: the result is a
valid matching of size `min Q T` of minimal total cost. -/
theorem lsa_spec (cost : ℕ → ℕ → ℚ) (Q T : ℕ) :
    IsMatching Q T (linear_sum_assignment cost Q T)
      ∧ (linear_sum_assignment cost Q T).length = min Q T
      ∧ ∀ c, IsMatching Q T c → c.length = min Q T →
          totalCost cost (linear_sum_assignment cost Q T) ≤ totalCost cost c := by
  cases hcand : candidates Q T with
  | nil => exact absurd hcand (candidates_ne_nil Q T)
  | cons c0 cs =>
    have hdef : linear_sum_assignment cost Q T = pickMin cost c0 cs := by
      unfold linear_sum_assignment
      rw [hcand]
    have hmem : pickMin cost c0 cs ∈ candidates Q T := by
      rw [hcand]
      exact pickMin_mem cost cs c0
    have hsound := candidates_sound hmem
    rw [hdef]
    refine ⟨hsound.1, hsound.2, ?_⟩
    intro c hm hl
    obtain ⟨c2, hc2mem, hc2perm⟩ := exists_mem_candidates Q T c hm hl
    have hle : totalCost cost (pickMin cost c0 cs) ≤ totalCost cost c2 := by
      apply pickMin_le cost cs c0
      rw [← hcand]
      exact hc2mem
    have heq : totalCost cost c2 = totalCost cost c := by
      unfold totalCost
      exact (hc2perm.map _).sum_eq
    rw [← heq]
    exact hle

theorem lsa_T_zero (cost : ℕ → ℕ → ℚ) (Q : ℕ) : linear_sum_assignment cost Q 0 = [] := by
  have hgrid : gridPairs Q 0 = [] := by
    unfold gridPairs
    simp
  have h0 : candidates Q 0 = [[]] := by
    unfold candidates
    rw [hgrid, Nat.min_zero, List.sublistsLen_zero]
    simp [IsMatching]
  unfold linear_sum_assignment
  rw [h0]
  simp [pickMin]

/-! ### Flatten/partition index lemmas -/

theorem flatten_div {b q Q : ℕ} (hq : q < Q) : (b * Q + q) / Q = b := by
  have hQ : 0 < Q := Nat.lt_of_le_of_lt (Nat.zero_le q) hq
  rw [Nat.mul_comm, Nat.mul_add_div hQ, Nat.div_eq_of_lt hq, Nat.add_zero]

theorem flatten_mod {b q Q : ℕ} (hq : q < Q) : (b * Q + q) % Q = q := by
  rw [Nat.mul_comm, Nat.mul_add_mod, Nat.mod_eq_of_lt hq]

theorem getD_map_range {β : Type} (f : ℕ → β) (d : β) {n b : ℕ} (hb : b < n) :
    ((List.range n).map f).getD b d = f b := by
  rw [List.getD_eq_getElem _ _ (by simpa using hb)]
  simp

theorem getD_map_lt {α β : Type} (f : α → β) (l : List α) (d : β) (d2 : α) {b : ℕ}
    (hb : b < l.length) : (l.map f).getD b d = f (l.getD b d2) := by
  rw [List.getD_eq_getElem _ _ (by simpa using hb), List.getElem_map,
    List.getD_eq_getElem _ _ hb]

/-- Reading the concatenation of per-element lists at the offset of element
`b` plus `t` gives entry `t` of element `b`: the partition of the
concatenated axis exactly inverts the concatenation. -/
theorem flatMap_getD {α β : Type} (f : α → List β) (d : β) :
    ∀ (L : List α) (b : ℕ) (hb : b < L.length) (t : ℕ),
      t < (f (L.get ⟨b, hb⟩)).length →
      (L.flatMap f).getD (((L.take b).map (fun x => (f x).length)).sum + t) d
        = (f (L.get ⟨b, hb⟩)).getD t d := by
  intro L
  induction L with
  | nil =>
    intro b hb
    exact absurd hb (Nat.not_lt_zero b)
  | cons a L ih =>
    intro b hb t ht
    cases b with
    | zero =>
      simp only [List.take_zero, List.map_nil, List.sum_nil, Nat.zero_add,
        List.flatMap_cons]
      exact List.getD_append _ _ d t ht
    | succ b2 =>
      rw [List.flatMap_cons]
      simp only [List.take_succ_cons, List.map_cons, List.sum_cons]
      rw [Nat.add_assoc, List.getD_append_right _ _ _ _ (Nat.le_add_right _ _),
        Nat.add_sub_cancel_left]
      exact ih b2 (Nat.lt_of_succ_lt_succ hb) t ht

theorem labels_offset_eq {targets : List Target} (b : ℕ)
    (hlen : ∀ tg ∈ targets, tg.labels.length = tg.boxes.length) :
    ((targets.take b).map (fun x => (Target.labels x).length)).sum = tgtOffset targets b := by
  unfold tgtOffset
  congr 1
  apply List.map_congr_left
  intro tg htg
  exact hlen tg (List.take_subset b targets htg)

theorem get_mem_of_lt {α : Type} (l : List α) (b : ℕ) (hb : b < l.length) :
    l.get ⟨b, hb⟩ ∈ l :=
  List.get_mem l b hb

/-- Entry `(q, t)` of batch element `b`'s cost block, written in terms of
batch element `b`'s own query `q` and target `t`. -/
theorem costBlock_formula (E : ℚ → ℚ) (cc cb cg : ℚ) (inp : MatcherInput)
    (targets : List Target) (b q t : ℕ)
    (hb : b < targets.length) (hq : q < inp.Q)
    (ht : t < (targets.getD b default).boxes.length)
    (hlen : ∀ tg ∈ targets, tg.labels.length = tg.boxes.length) :
    costBlock E cc cb cg inp targets b q t
      = cb * l1Dist (inp.pboxes b q) ((targets.getD b default).boxes.getD t default)
        + cc * (-(softmaxE E inp.nCls (inp.logits b q)
            ((targets.getD b default).labels.getD t 0)))
        + cg * (-(giouVal (inp.pboxes b q)
            ((targets.getD b default).boxes.getD t default))) := by
  have hget : targets.getD b default = targets.get ⟨b, hb⟩ := by
    rw [List.getD_eq_getElem _ _ hb]
    rfl
  rw [hget] at ht ⊢
  have htl : t < (Target.labels (targets.get ⟨b, hb⟩)).length := by
    rw [hlen _ (get_mem_of_lt targets b hb)]
    exact ht
  unfold costBlock costFlat out_bbox out_prob tgt_bbox tgt_ids
  rw [flatten_div hq, flatten_mod hq]
  have hbox : (targets.flatMap Target.boxes).getD (tgtOffset targets b + t) default
      = (Target.boxes (targets.get ⟨b, hb⟩)).getD t default := by
    unfold tgtOffset
    exact flatMap_getD Target.boxes default targets b hb t ht
  have hlab : (targets.flatMap Target.labels).getD (tgtOffset targets b + t) 0
      = (Target.labels (targets.get ⟨b, hb⟩)).getD t 0 := by
    rw [← labels_offset_eq b hlen]
    exact flatMap_getD Target.labels 0 targets b hb t htl
  rw [hbox, hlab]

/-- When the degeneracy checks pass and there are no more target dicts than
batch elements, `HungarianMatcher.forward` succeeds, returning one solved
assignment per target dict. -/
theorem matcherForward_some (E : ℚ → ℚ) (cc cb cg : ℚ) (inp : MatcherInput)
    (targets : List Target) (hcheck : forwardCheck inp targets = true)
    (hlen : targets.length ≤ inp.B) :
    matcherForward E cc cb cg inp targets
      = some ((List.range targets.length).map (fun b =>
          linear_sum_assignment (costBlock E cc cb cg inp targets b) inp.Q
            ((targets.map (fun t => t.boxes.length)).getD b 0))) := by
  unfold matcherForward
  rw [hcheck]
  simp [hlen]

/-- When more target dicts than batch elements are supplied, indexing the
batch dimension fails: `forward` errors. -/
theorem matcherForward_none_of_long (E : ℚ → ℚ) (cc cb cg : ℚ) (inp : MatcherInput)
    (targets : List Target) (hlen : inp.B < targets.length) :
    matcherForward E cc cb cg inp targets = none := by
  unfold matcherForward
  have h : decide (targets.length ≤ inp.B) = false := by
    simp [Nat.not_le_of_lt hlen]
  rw [h]
  simp

/-! ### Stable sort and filter -/

theorem orderedInsert_cons_of_forall {α : Type} (r : α → α → Prop) [DecidableRel r]
    (x : α) (l : List α) (h : ∀ y ∈ l, r x y) : l.orderedInsert r x = x :: l := by
  cases l with
  | nil => rfl
  | cons b bs =>
    simp only [List.orderedInsert]
    rw [if_pos (h b (List.mem_cons_self b bs))]

theorem filter_orderedInsert {α : Type} (r : α → α → Prop) [DecidableRel r] [IsTrans α r]
    (p : α → Bool) (x : α) :
    ∀ l : List α, l.Pairwise r →
      (l.orderedInsert r x).filter p
        = if p x then (l.filter p).orderedInsert r x else l.filter p := by
  intro l
  induction l with
  | nil =>
    intro _
    by_cases hpx : p x
    · simp [List.orderedInsert, hpx]
    · simp [List.orderedInsert, hpx]
  | cons b bs ih =>
    intro hp
    have hbs := hp.of_cons
    have hhead := (List.pairwise_cons.mp hp).1
    by_cases hrxb : r x b
    · simp only [List.orderedInsert, if_pos hrxb]
      by_cases hpx : p x
      · rw [List.filter_cons_of_pos hpx, if_pos hpx]
        by_cases hpb : p b
        · rw [List.filter_cons_of_pos hpb]
          simp only [List.orderedInsert]
          rw [if_pos hrxb]
        · rw [List.filter_cons_of_neg hpb]
          exact (orderedInsert_cons_of_forall r x (bs.filter p)
            (fun y hy => trans_of r hrxb (hhead y (List.mem_of_mem_filter hy)))).symm
      · rw [List.filter_cons_of_neg hpx, if_neg hpx]
    · simp only [List.orderedInsert, if_neg hrxb]
      by_cases hpb : p b
      · rw [List.filter_cons_of_pos hpb, ih hbs]
        by_cases hpx : p x
        · rw [if_pos hpx, if_pos hpx, List.filter_cons_of_pos hpb]
          simp only [List.orderedInsert]
          rw [if_neg hrxb]
        · rw [if_neg hpx, if_neg hpx, List.filter_cons_of_pos hpb]
      · rw [List.filter_cons_of_neg hpb, ih hbs]
        by_cases hpx : p x
        · rw [if_pos hpx, if_pos hpx, List.filter_cons_of_neg hpb]
        · rw [if_neg hpx, if_neg hpx, List.filter_cons_of_neg hpb]

theorem filter_insertionSort {α : Type} (r : α → α → Prop) [DecidableRel r]
    [IsTotal α r] [IsTrans α r] (p : α → Bool) :
    ∀ l : List α, (l.filter p).insertionSort r = (l.insertionSort r).filter p := by
  intro l
  induction l with
  | nil => rfl
  | cons x xs ih =>
    simp only [List.insertionSort]
    rw [filter_orderedInsert r p x _ (List.sorted_insertionSort r xs)]
    by_cases hpx : p x
    · rw [List.filter_cons_of_pos hpx, if_pos hpx]
      simp only [List.insertionSort]
      rw [ih]
    · rw [List.filter_cons_of_neg hpx, if_neg hpx, ih]

/-! ### Suppression lemmas -/

theorem suppress_nil (iouThr : ℚ) : suppress iouThr [] = [] := by
  rw [suppress]

theorem suppress_cons (iouThr : ℚ) (d : Det) (rest : List Det) :
    suppress iouThr (d :: rest)
      = d :: suppress iouThr (rest.filter (fun e => decide (iouVal d.box e.box ≤ iouThr))) := by
  rw [suppress]

theorem suppress_sublist (iouThr : ℚ) (l : List Det) : (suppress iouThr l).Sublist l := by
  induction l using suppress.induct iouThr with
  | case1 => rw [suppress_nil]
  | case2 d rest ih =>
    rw [suppress_cons]
    exact List.Sublist.cons₂ _ (ih.trans (List.filter_sublist _))

theorem suppress_pairwise (iouThr : ℚ) (l : List Det) :
    (suppress iouThr l).Pairwise (detCompat iouThr) := by
  induction l using suppress.induct iouThr with
  | case1 => rw [suppress_nil]; exact List.Pairwise.nil
  | case2 d rest ih =>
    rw [suppress_cons]
    refine List.pairwise_cons.mpr ⟨?_, ih⟩
    intro e he
    have hmem := (suppress_sublist iouThr _).subset he
    have h2 := List.of_mem_filter hmem
    exact (of_decide_eq_true h2 : iouVal d.box e.box ≤ iouThr)

theorem suppress_eq_self (iouThr : ℚ) (l : List Det)
    (h : l.Pairwise (detCompat iouThr)) : suppress iouThr l = l := by
  induction l using suppress.induct iouThr with
  | case1 => rw [suppress_nil]
  | case2 d rest ih =>
    rw [suppress_cons]
    have hrest : rest.filter (fun e => decide (iouVal d.box e.box ≤ iouThr)) = rest := by
      apply List.filter_eq_self.mpr
      intro e he
      exact decide_eq_true ((List.pairwise_cons.mp h).1 e he)
    rw [hrest] at ih ⊢
    rw [ih h.of_cons]

/-- The suppression pass commutes with restricting to detections above a
score threshold, provided the input is sorted by descending score. -/
theorem suppress_filter_score (iouThr thr : ℚ) (l : List Det) (hs : l.Pairwise detGe) :
    suppress iouThr (l.filter (fun e => decide (thr < e.score)))
      = (suppress iouThr l).filter (fun e => decide (thr < e.score)) := by
  induction l using suppress.induct iouThr with
  | case1 => simp [suppress_nil]
  | case2 d rest ih =>
    rw [suppress_cons]
    by_cases hd : thr < d.score
    · have hL : List.filter (fun e => decide (thr < e.score)) (d :: rest)
          = d :: List.filter (fun e => decide (thr < e.score)) rest := by
        simp [List.filter_cons, hd]
      have hR : List.filter (fun e => decide (thr < e.score))
            (d :: suppress iouThr
              (rest.filter (fun e => decide (iouVal d.box e.box ≤ iouThr))))
          = d :: List.filter (fun e => decide (thr < e.score))
              (suppress iouThr
                (rest.filter (fun e => decide (iouVal d.box e.box ≤ iouThr)))) := by
        simp [List.filter_cons, hd]
      rw [hL, hR, suppress_cons]
      have hcomm : (rest.filter (fun e => decide (thr < e.score))).filter
            (fun e => decide (iouVal d.box e.box ≤ iouThr))
          = (rest.filter (fun e => decide (iouVal d.box e.box ≤ iouThr))).filter
            (fun e => decide (thr < e.score)) := by
        rw [List.filter_filter, List.filter_filter]
        apply List.filter_congr
        intro e _
        exact Bool.and_comm _ _
      rw [hcomm]
      rw [ih (List.Pairwise.sublist (List.filter_sublist _) hs.of_cons)]
    · have hL : List.filter (fun e => decide (thr < e.score)) (d :: rest)
          = List.filter (fun e => decide (thr < e.score)) rest := by
        simp [List.filter_cons, hd]
      rw [hL]
      have hrest : rest.filter (fun e => decide (thr < e.score)) = [] := by
        apply List.filter_eq_nil_iff.mpr
        intro e he
        have hgd : e.score ≤ d.score := (List.pairwise_cons.mp hs).1 e he
        simp only [decide_eq_true_eq]
        intro hc
        exact hd (lt_of_lt_of_le hc hgd)
      rw [hrest, suppress_nil]
      symm
      apply List.filter_eq_nil_iff.mpr
      intro e he
      rcases List.mem_cons.mp he with h | h
      · subst h
        simpa using hd
      · have hmem : e ∈ rest := (List.filter_sublist _).subset ((suppress_sublist iouThr _).subset h)
        have hgd : e.score ≤ d.score := (List.pairwise_cons.mp hs).1 e hmem
        simp only [decide_eq_true_eq]
        intro hc
        exact hd (lt_of_lt_of_le hc hgd)

/-! ### Projection congruence: NMS decisions depend only on boxes and scores -/

theorem pairwise_projBS (R : Box × ℚ → Box × ℚ → Prop) {l m : List Det}
    (hlm : l.map projBS = m.map projBS)
    (h : l.Pairwise (fun a b => R (projBS a) (projBS b))) :
    m.Pairwise (fun a b => R (projBS a) (projBS b)) := by
  have h2 := (List.pairwise_map).mpr h
  rw [hlm] at h2
  exact (List.pairwise_map).mp h2

theorem pairwise_detGe_projBS {l m : List Det} (hlm : l.map projBS = m.map projBS)
    (h : l.Pairwise detGe) : m.Pairwise detGe := by
  have h2 : l.Pairwise (fun a b => (fun u v : Box × ℚ => v.2 ≤ u.2) (projBS a) (projBS b)) :=
    h.imp (fun hab => hab)
  exact (pairwise_projBS (fun u v => v.2 ≤ u.2) hlm h2).imp (fun hab => hab)

theorem pairwise_detCompat_projBS (iouThr : ℚ) {l m : List Det}
    (hlm : l.map projBS = m.map projBS)
    (h : l.Pairwise (detCompat iouThr)) : m.Pairwise (detCompat iouThr) := by
  have h2 : l.Pairwise
      (fun a b => (fun u v : Box × ℚ => iouVal u.1 v.1 ≤ iouThr) (projBS a) (projBS b)) :=
    h.imp (fun hab => hab)
  exact (pairwise_projBS (fun u v => iouVal u.1 v.1 ≤ iouThr) hlm h2).imp (fun hab => hab)

theorem map_projBS_filter (P : Box × ℚ → Bool) :
    ∀ (l m : List Det), l.map projBS = m.map projBS →
      (l.filter (fun d => P (projBS d))).map projBS
        = (m.filter (fun d => P (projBS d))).map projBS := by
  intro l
  induction l with
  | nil =>
    intro m h
    rw [List.map_eq_nil_iff.mp h.symm]
  | cons a as ih =>
    intro m h
    cases m with
    | nil => exact absurd h.symm (by simp)
    | cons b bs =>
      simp only [List.map_cons, List.cons.injEq] at h
      obtain ⟨hab, htl⟩ := h
      rw [List.filter_cons, List.filter_cons]
      by_cases hP : P (projBS b) = true
      · have hPa : P (projBS a) = true := by rw [hab]; exact hP
        rw [if_pos hPa, if_pos hP, List.map_cons, List.map_cons, hab, ih bs htl]
      · have hPa : ¬ (P (projBS a) = true) := by rw [hab]; exact hP
        rw [if_neg hPa, if_neg hP, ih bs htl]

theorem map_projBS_orderedInsert (x y : Det) (hxy : projBS x = projBS y) :
    ∀ (l m : List Det), l.map projBS = m.map projBS →
      (l.orderedInsert detGe x).map projBS = (m.orderedInsert detGe y).map projBS := by
  have hsc : x.score = y.score := congrArg Prod.snd hxy
  intro l
  induction l with
  | nil =>
    intro m h
    rw [List.map_eq_nil_iff.mp h.symm]
    simp [List.orderedInsert, hxy]
  | cons a as ih =>
    intro m h
    cases m with
    | nil => exact absurd h.symm (by simp)
    | cons b bs =>
      simp only [List.map_cons, List.cons.injEq] at h
      obtain ⟨hab, htl⟩ := h
      have hsab : a.score = b.score := congrArg Prod.snd hab
      by_cases hr : detGe x a
      · have hr2 : detGe y b := by
          unfold detGe at hr ⊢
          rw [← hsab, ← hsc]
          exact hr
        simp only [List.orderedInsert, if_pos hr, if_pos hr2, List.map_cons]
        rw [hxy, hab, htl]
      · have hr2 : ¬ detGe y b := by
          unfold detGe at hr ⊢
          rw [← hsab, ← hsc]
          exact hr
        simp only [List.orderedInsert, if_neg hr, if_neg hr2, List.map_cons]
        rw [hab, ih bs htl]

theorem map_projBS_insertionSort :
    ∀ (l m : List Det), l.map projBS = m.map projBS →
      (l.insertionSort detGe).map projBS = (m.insertionSort detGe).map projBS := by
  intro l
  induction l with
  | nil =>
    intro m h
    rw [List.map_eq_nil_iff.mp h.symm]
  | cons a as ih =>
    intro m h
    cases m with
    | nil => exact absurd h.symm (by simp)
    | cons b bs =>
      simp only [List.map_cons, List.cons.injEq] at h
      obtain ⟨hab, htl⟩ := h
      simp only [List.insertionSort]
      exact map_projBS_orderedInsert a b hab _ _ (ih bs htl)

theorem map_projBS_suppress (iouThr : ℚ) :
    ∀ (l m : List Det), l.map projBS = m.map projBS →
      (suppress iouThr l).map projBS = (suppress iouThr m).map projBS := by
  intro l
  induction l using suppress.induct iouThr with
  | case1 =>
    intro m h
    rw [List.map_eq_nil_iff.mp h.symm]
  | case2 d rest ih =>
    intro m h
    cases m with
    | nil => exact absurd h.symm (by simp)
    | cons e rest2 =>
      simp only [List.map_cons, List.cons.injEq] at h
      obtain ⟨hde, htl⟩ := h
      have hbox : d.box = e.box := congrArg Prod.fst hde
      rw [suppress_cons, suppress_cons, List.map_cons, List.map_cons, hde]
      have hfilter : (rest.filter (fun x => decide (iouVal d.box x.box ≤ iouThr))).map projBS
          = (rest2.filter (fun x => decide (iouVal e.box x.box ≤ iouThr))).map projBS := by
        have h1 : (rest.filter (fun x => decide (iouVal d.box x.box ≤ iouThr)))
            = rest.filter (fun x => (fun u : Box × ℚ => decide (iouVal d.box u.1 ≤ iouThr)) (projBS x)) := rfl
        have h2 : (rest2.filter (fun x => decide (iouVal e.box x.box ≤ iouThr)))
            = rest2.filter (fun x => (fun u : Box × ℚ => decide (iouVal d.box u.1 ≤ iouThr)) (projBS x)) := by
          rw [hbox]
          rfl
        rw [h1, h2]
        exact map_projBS_filter (fun u => decide (iouVal d.box u.1 ≤ iouThr)) rest rest2 htl
      rw [ih _ hfilter]

/-! ### Gather lemmas -/

theorem map_getD_range {α : Type} (l : List α) (d : α) :
    (List.range l.length).map (fun i => l.getD i d) = l := by
  induction l with
  | nil => rfl
  | cons a as ih =>
    rw [List.length_cons, List.range_succ_eq_map, List.map_cons, List.map_map]
    have h1 : ((fun i => (a :: as).getD i d) ∘ Nat.succ) = (fun i => as.getD i d) := rfl
    rw [h1, ih]
    rfl

theorem mem_nmsDets {boxes : List Box} {scores : List ℚ} {s : Det}
    (h : s ∈ nmsDets boxes scores) :
    s.idx < boxes.length ∧ s.box = boxes.getD s.idx default
      ∧ s.score = scores.getD s.idx 0 := by
  rcases List.mem_map.mp h with ⟨i, hi, he⟩
  subst he
  exact ⟨List.mem_range.mp hi, rfl, rfl⟩

theorem length_nmsDets (boxes : List Box) (scores : List ℚ) :
    (nmsDets boxes scores).length = boxes.length := by
  unfold nmsDets
  rw [List.length_map, List.length_range]

theorem nmsDets_of_maps {γ : Type} (keep : List γ) (fb : γ → Box) (fs : γ → ℚ) :
    (nmsDets (keep.map fb) (keep.map fs)).map projBS
      = keep.map (fun q => (fb q, fs q)) := by
  apply List.ext_getElem
  · unfold nmsDets
    simp
  · intro i h1 h2
    have hi : i < keep.length := by
      simpa using h2
    simp only [nmsDets, List.length_map, List.getElem_map, List.getElem_range]
    have hb : (keep.map fb).getD i default = fb (keep.get ⟨i, hi⟩) := by
      rw [List.getD_eq_getElem _ _ (by simpa using hi), List.getElem_map]
      rfl
    have hsc : (keep.map fs).getD i 0 = fs (keep.get ⟨i, hi⟩) := by
      rw [List.getD_eq_getElem _ _ (by simpa using hi), List.getElem_map]
      rfl
    unfold projBS
    rw [hb, hsc]
    rfl

/-! ### NMS pipeline lemmas -/

theorem length_eq_of_map_projBS {l m : List Det} (h : l.map projBS = m.map projBS) :
    l.length = m.length := by
  have h2 := congrArg List.length h
  simpa using h2

theorem mem_nms_lt (iouThr : ℚ) (boxes : List Box) (scores : List ℚ) :
    ∀ i ∈ nms iouThr boxes scores, i < boxes.length := by
  intro i hi
  unfold nms at hi
  rcases List.mem_map.mp hi with ⟨s, hs, he⟩
  rw [← he]
  have hmem : s ∈ (nmsDets boxes scores).insertionSort detGe :=
    (suppress_sublist iouThr _).subset hs
  have hmem2 : s ∈ nmsDets boxes scores := (List.mem_insertionSort detGe).mp hmem
  exact (mem_nmsDets hmem2).1

theorem nms_length_le (iouThr : ℚ) (boxes : List Box) (scores : List ℚ) :
    (nms iouThr boxes scores).length ≤ boxes.length := by
  unfold nms
  rw [List.length_map]
  calc (suppress iouThr ((nmsDets boxes scores).insertionSort detGe)).length
      ≤ ((nmsDets boxes scores).insertionSort detGe).length :=
        (suppress_sublist iouThr _).length_le
    _ = (nmsDets boxes scores).length := List.length_insertionSort _ _
    _ = boxes.length := length_nmsDets _ _

/-- The number of boxes surviving `PostProcess.__call__` equals the length
of the suppression pass run on the sorted, thresholded detections built
from per-query boxes and scores. -/
theorem postProcess_fst_length (E : ℚ → ℚ) (thr iouThr : ℚ) (Q nCls : ℕ)
    (pboxes : ℕ → Box) (logits : ℕ → ℕ → ℚ) :
    (postProcess E thr iouThr Q nCls pboxes logits).1.length
      = (suppress iouThr (((keepIdx E thr Q nCls logits).map
          (fun q => (⟨0, pboxes q, qScore E nCls (logits q)⟩ : Det))).insertionSort
            detGe)).length := by
  have h1 : (postProcess E thr iouThr Q nCls pboxes logits).1.length
      = (nms iouThr ((keepIdx E thr Q nCls logits).map pboxes)
          ((keepIdx E thr Q nCls logits).map
            (fun q => qScore E nCls (logits q)))).length := by
    show ((nms iouThr _ _).map _).length = _
    rw [List.length_map]
  rw [h1]
  unfold nms
  rw [List.length_map]
  have hmap : (nmsDets ((keepIdx E thr Q nCls logits).map pboxes)
        ((keepIdx E thr Q nCls logits).map (fun q => qScore E nCls (logits q)))).map projBS
      = ((keepIdx E thr Q nCls logits).map
          (fun q => (⟨0, pboxes q, qScore E nCls (logits q)⟩ : Det))).map projBS := by
    rw [nmsDets_of_maps, List.map_map]
    rfl
  exact length_eq_of_map_projBS
    (map_projBS_suppress iouThr _ _ (map_projBS_insertionSort _ _ hmap))

theorem keepIdx_filter (E : ℚ → ℚ) (thr1 thr2 : ℚ) (Q nCls : ℕ) (logits : ℕ → ℕ → ℚ)
    (h : thr1 ≤ thr2) :
    keepIdx E thr2 Q nCls logits
      = (keepIdx E thr1 Q nCls logits).filter
          (fun q => decide (thr2 < qScore E nCls (logits q))) := by
  unfold keepIdx
  rw [List.filter_filter]
  apply List.filter_congr
  intro q _
  by_cases hq : thr2 < qScore E nCls (logits q)
  · have hq1 : thr1 < qScore E nCls (logits q) := lt_of_le_of_lt h hq
    simp [hq, hq1]
  · simp [hq]

/-- Raising the confidence threshold never increases the number of boxes
surviving the full threshold-plus-NMS pipeline. -/
theorem postProcess_count_mono (E : ℚ → ℚ) (thr1 thr2 iouThr : ℚ) (Q nCls : ℕ)
    (pboxes : ℕ → Box) (logits : ℕ → ℕ → ℚ) (h : thr1 ≤ thr2) :
    (postProcess E thr2 iouThr Q nCls pboxes logits).1.length
      ≤ (postProcess E thr1 iouThr Q nCls pboxes logits).1.length := by
  rw [postProcess_fst_length, postProcess_fst_length]
  rw [keepIdx_filter E thr1 thr2 Q nCls logits h]
  have hfm : ((keepIdx E thr1 Q nCls logits).filter
        (fun q => decide (thr2 < qScore E nCls (logits q)))).map
          (fun q => (⟨0, pboxes q, qScore E nCls (logits q)⟩ : Det))
      = ((keepIdx E thr1 Q nCls logits).map
          (fun q => (⟨0, pboxes q, qScore E nCls (logits q)⟩ : Det))).filter
          (fun e => decide (thr2 < e.score)) := by
    rw [List.filter_map]
    rfl
  rw [hfm]
  rw [filter_insertionSort detGe (fun e => decide (thr2 < e.score))]
  rw [suppress_filter_score iouThr thr2 _ (List.sorted_insertionSort detGe _)]
  exact List.length_filter_le _ _

/-! ### Idempotence of the suppression stage -/

theorem nms_of_own_output (iouThr : ℚ) (bx : List Box) (sc : List ℚ) :
    nms iouThr ((nms iouThr bx sc).map (fun i => bx.getD i default))
        ((nms iouThr bx sc).map (fun i => sc.getD i 0))
      = List.range (nms iouThr bx sc).length := by
  have hchar : ∀ s ∈ suppress iouThr ((nmsDets bx sc).insertionSort detGe),
      s.box = bx.getD s.idx default ∧ s.score = sc.getD s.idx 0 := by
    intro s hs
    have h1 : s ∈ nmsDets bx sc :=
      (List.mem_insertionSort detGe).mp ((suppress_sublist iouThr _).subset hs)
    exact ⟨(mem_nmsDets h1).2.1, (mem_nmsDets h1).2.2⟩
  have hk : nms iouThr bx sc
      = (suppress iouThr ((nmsDets bx sc).insertionSort detGe)).map Det.idx := rfl
  have hbx : (nms iouThr bx sc).map (fun i => bx.getD i default)
      = (suppress iouThr ((nmsDets bx sc).insertionSort detGe)).map Det.box := by
    rw [hk, List.map_map]
    apply List.map_congr_left
    intro s hs
    exact ((hchar s hs).1).symm
  have hsc : (nms iouThr bx sc).map (fun i => sc.getD i 0)
      = (suppress iouThr ((nmsDets bx sc).insertionSort detGe)).map Det.score := by
    rw [hk, List.map_map]
    apply List.map_congr_left
    intro s hs
    exact ((hchar s hs).2).symm
  have hlen : (nms iouThr bx sc).length
      = (suppress iouThr ((nmsDets bx sc).insertionSort detGe)).length := by
    rw [hk, List.length_map]
  rw [hbx, hsc, hlen]
  have hproj : (nmsDets
        ((suppress iouThr ((nmsDets bx sc).insertionSort detGe)).map Det.box)
        ((suppress iouThr ((nmsDets bx sc).insertionSort detGe)).map Det.score)).map projBS
      = (suppress iouThr ((nmsDets bx sc).insertionSort detGe)).map projBS := by
    rw [nmsDets_of_maps]
    rfl
  have hsorted : (suppress iouThr ((nmsDets bx sc).insertionSort detGe)).Pairwise detGe :=
    List.Pairwise.sublist (suppress_sublist iouThr _) (List.sorted_insertionSort detGe _)
  have hcompat := suppress_pairwise iouThr ((nmsDets bx sc).insertionSort detGe)
  have hs2 := pairwise_detGe_projBS hproj.symm hsorted
  have hc2 := pairwise_detCompat_projBS iouThr hproj.symm hcompat
  unfold nms
  rw [List.Sorted.insertionSort_eq hs2, suppress_eq_self iouThr _ hc2]
  unfold nmsDets
  rw [List.map_map]
  apply List.ext_getElem
  · simp
  · intro i h1 h2
    simp

/-! ### torch.max characterization -/

theorem maxWithIdx_spec : ∀ l : List ℚ, l ≠ [] →
    (maxWithIdx l).2 < l.length
      ∧ l.getD (maxWithIdx l).2 0 = (maxWithIdx l).1
      ∧ ∀ x ∈ l, x ≤ (maxWithIdx l).1
  | [], h => absurd rfl h
  | [a], _ => by
    refine ⟨by simp [maxWithIdx], by simp [maxWithIdx], ?_⟩
    intro x hx
    rw [List.mem_singleton.mp hx]
    simp [maxWithIdx]
  | a :: b :: rest, _ => by
    obtain ⟨ih1, ih2, ih3⟩ := maxWithIdx_spec (b :: rest) (by simp)
    by_cases hcmp : a < (maxWithIdx (b :: rest)).1
    · have hdef : maxWithIdx (a :: b :: rest)
          = ((maxWithIdx (b :: rest)).1, (maxWithIdx (b :: rest)).2 + 1) := by
        simp [maxWithIdx, hcmp]
      rw [hdef]
      refine ⟨?_, ?_, ?_⟩
      · simpa using Nat.succ_lt_succ ih1
      · simpa using ih2
      · intro x hx
        rcases List.mem_cons.mp hx with h | h
        · rw [h]
          exact le_of_lt hcmp
        · exact ih3 x h
    · have hdef : maxWithIdx (a :: b :: rest) = (a, 0) := by
        simp [maxWithIdx, hcmp]
      rw [hdef]
      refine ⟨by simp, by simp, ?_⟩
      intro x hx
      rcases List.mem_cons.mp hx with h | h
      · rw [h]
      · exact le_trans (ih3 x h) (le_of_not_lt hcmp)

/-! ### Claims -/

/-- Claim C7: constructing the matcher fails if and only if all three cost
weights are zero; the check happens at construction time, before any
per-batch matching work. -/
theorem claim_C7 (cc cb cg : ℚ) :
    matcherInit cc cb cg = none ↔ cc = 0 ∧ cb = 0 ∧ cg = 0 := by
  by_cases h1 : cc = 0 <;> by_cases h2 : cb = 0 <;> by_cases h3 : cg = 0 <;>
    simp [matcherInit, h1, h2, h3]

/-- Claim C6: `generalized_box_iou` checks every box of both inputs for
`x1 ≥ x0 ∧ y1 ≥ y0` before computing anything, and fails exactly when some
box violates the invariant; under the precondition that all boxes are valid
the failure branch is unreachable. -/
theorem claim_C6 (boxes1 boxes2 : List Box) :
    generalized_box_iou boxes1 boxes2 = none
      ↔ ∃ bx ∈ boxes1 ++ boxes2, boxOk bx = false := by
  unfold generalized_box_iou
  by_cases h : boxes1.all boxOk && boxes2.all boxOk
  · rw [if_pos h]
    simp only [Bool.and_eq_true, List.all_eq_true] at h
    constructor
    · intro hc
      exact absurd hc (by simp)
    · rintro ⟨bx, hmem, hfalse⟩
      rcases List.mem_append.mp hmem with hm | hm
      · rw [h.1 bx hm] at hfalse
        exact absurd hfalse (by simp)
      · rw [h.2 bx hm] at hfalse
        exact absurd hfalse (by simp)
  · rw [if_neg h]
    simp only [Bool.and_eq_true, List.all_eq_true] at h
    constructor
    · intro _
      rcases not_and_or.mp h with h4 | h4
      · push_neg at h4
        obtain ⟨bx, hmem, hval⟩ := h4
        exact ⟨bx, List.mem_append.mpr (Or.inl hmem), Bool.not_eq_true _ ▸ hval⟩
      · push_neg at h4
        obtain ⟨bx, hmem, hval⟩ := h4
        exact ⟨bx, List.mem_append.mpr (Or.inr hmem), Bool.not_eq_true _ ▸ hval⟩
    · intro _
      rfl

/-- Claim C2: for a batch with as many target dicts as prediction batch
elements, entry `(q, t)` of the cost block handed to the solver for batch
element `b` equals
`wBox·L1(box_q, box_t) + wClass·(−P(label_t | query_q)) + wGiou·(−GIoU(box_q, box_t))`
where query `q` and target `t` are taken from batch element `b` itself:
the flatten-then-partition scheme preserves query and target order. -/
theorem claim_C2 (E : ℚ → ℚ) (cc cb cg : ℚ) (inp : MatcherInput)
    (targets : List Target) (b q t : ℕ)
    (hB : targets.length = inp.B) (hb : b < targets.length) (hq : q < inp.Q)
    (ht : t < (targets.getD b default).boxes.length)
    (hlen : ∀ tg ∈ targets, tg.labels.length = tg.boxes.length) :
    costBlock E cc cb cg inp targets b q t
      = cb * l1Dist (inp.pboxes b q) ((targets.getD b default).boxes.getD t default)
        + cc * (-(softmaxE E inp.nCls (inp.logits b q)
            ((targets.getD b default).labels.getD t 0)))
        + cg * (-(giouVal (inp.pboxes b q)
            ((targets.getD b default).boxes.getD t default))) :=
  costBlock_formula E cc cb cg inp targets b q t hb hq ht hlen

/-- Claim C4: a batch element with no ground-truth boxes gets the empty
assignment from `HungarianMatcher.forward`, and the call raises no error. -/
theorem claim_C4 (E : ℚ → ℚ) (cc cb cg : ℚ) (inp : MatcherInput)
    (targets : List Target) (b : ℕ)
    (hcheck : forwardCheck inp targets = true) (hB : targets.length ≤ inp.B)
    (hb : b < targets.length) (hT : (targets.getD b default).boxes = []) :
    ∃ res, matcherForward E cc cb cg inp targets = some res ∧ res.getD b [] = [] := by
  refine ⟨_, matcherForward_some E cc cb cg inp targets hcheck hB, ?_⟩
  rw [getD_map_range _ _ hb]
  have hsize : (targets.map (fun t => t.boxes.length)).getD b 0 = 0 := by
    rw [getD_map_lt _ targets 0 default hb, hT]
    rfl
  rw [hsize]
  exact lsa_T_zero _ _

/-- Claim C1: on each batch element the assignment returned by
`HungarianMatcher.forward` is a one-to-one matching of size `min Q T`
whose total cost under that element's cost block is minimal among all
one-to-one matchings of that size. -/
theorem claim_C1 (E : ℚ → ℚ) (cc cb cg : ℚ) (inp : MatcherInput)
    (targets : List Target) (b : ℕ) (alt : List (ℕ × ℕ))
    (hcheck : forwardCheck inp targets = true) (hB : targets.length ≤ inp.B)
    (hb : b < targets.length)
    (halt : IsMatching inp.Q (targets.getD b default).boxes.length alt)
    (haltlen : alt.length = min inp.Q (targets.getD b default).boxes.length) :
    ∃ res, matcherForward E cc cb cg inp targets = some res
      ∧ IsMatching inp.Q (targets.getD b default).boxes.length (res.getD b [])
      ∧ (res.getD b []).length = min inp.Q (targets.getD b default).boxes.length
      ∧ totalCost (costBlock E cc cb cg inp targets b) (res.getD b [])
          ≤ totalCost (costBlock E cc cb cg inp targets b) alt := by
  have hsize : (targets.map (fun t => t.boxes.length)).getD b 0
      = (targets.getD b default).boxes.length :=
    getD_map_lt _ targets 0 default hb
  refine ⟨_, matcherForward_some E cc cb cg inp targets hcheck hB, ?_, ?_, ?_⟩
  · rw [getD_map_range _ _ hb, hsize]
    exact (lsa_spec _ _ _).1
  · rw [getD_map_range _ _ hb, hsize]
    exact (lsa_spec _ _ _).2.1
  · rw [getD_map_range _ _ hb, hsize]
    exact (lsa_spec _ _ _).2.2 alt halt haltlen

theorem map_getD_of_length {α : Type} (l : List α) (d : α) (n : ℕ) (h : n = l.length) :
    (List.range n).map (fun i => l.getD i d) = l := by
  subst h
  exact map_getD_range l d

/-- Claim C3: in `PostProcess.__call__` each query's score is the maximum
of the softmax over the non-background classes, its class is the
corresponding argmax index, and a query survives the thresholding stage iff
its score is strictly greater than the confidence threshold. -/
theorem claim_C3 (E : ℚ → ℚ) (thr : ℚ) (Q nCls : ℕ) (logits : ℕ → ℕ → ℚ) (q : ℕ)
    (hn : 2 ≤ nCls) :
    (q ∈ keepIdx E thr Q nCls logits ↔ q < Q ∧ thr < qScore E nCls (logits q))
      ∧ qClass E nCls (logits q) < nCls - 1
      ∧ softmaxE E nCls (logits q) (qClass E nCls (logits q)) = qScore E nCls (logits q)
      ∧ ∀ j < nCls - 1, softmaxE E nCls (logits q) j ≤ qScore E nCls (logits q) := by
  have hlenq : (queryScores E nCls (logits q)).length = nCls - 1 := by
    unfold queryScores
    rw [List.length_map, List.length_range]
  have hne : queryScores E nCls (logits q) ≠ [] := by
    intro hcon
    have h0 := congrArg List.length hcon
    rw [hlenq] at h0
    simp at h0
    omega
  obtain ⟨h1, h2, h3⟩ := maxWithIdx_spec _ hne
  refine ⟨?_, ?_, ?_, ?_⟩
  · unfold keepIdx
    constructor
    · intro hmem
      have hm2 := List.mem_filter.mp hmem
      exact ⟨List.mem_range.mp hm2.1, of_decide_eq_true hm2.2⟩
    · rintro ⟨hq, hs⟩
      exact List.mem_filter.mpr ⟨List.mem_range.mpr hq, decide_eq_true hs⟩
  · unfold qClass
    rw [← hlenq]
    exact h1
  · have hidx : (maxWithIdx (queryScores E nCls (logits q))).2 < nCls - 1 := hlenq ▸ h1
    have hgd : (queryScores E nCls (logits q)).getD
          (maxWithIdx (queryScores E nCls (logits q))).2 0
        = softmaxE E nCls (logits q) (maxWithIdx (queryScores E nCls (logits q))).2 := by
      show ((List.range (nCls - 1)).map (softmaxE E nCls (logits q))).getD _ 0 = _
      exact getD_map_range _ _ hidx
    unfold qClass qScore
    rw [← hgd]
    exact h2
  · intro j hj
    apply h3
    unfold queryScores
    exact List.mem_map.mpr ⟨j, List.mem_range.mpr hj, rfl⟩

/-- Claim C8: with all other inputs fixed, raising the confidence threshold
never increases the number of detections surviving the full
threshold-plus-NMS pipeline of `PostProcess.__call__`. -/
theorem claim_C8 (E : ℚ → ℚ) (thr1 thr2 iouThr : ℚ) (Q nCls : ℕ) (pboxes : ℕ → Box)
    (logits : ℕ → ℕ → ℚ) (h : thr1 ≤ thr2) :
    (postProcess E thr2 iouThr Q nCls pboxes logits).1.length
      ≤ (postProcess E thr1 iouThr Q nCls pboxes logits).1.length :=
  postProcess_count_mono E thr1 thr2 iouThr Q nCls pboxes logits h

/-- Claim C9: the greedy NMS suppression stage is idempotent — applying it
to its own output (boxes, classes, scores) returns that output unchanged. -/
theorem claim_C9 (iouThr : ℚ) (boxes : List Box) (classes : List ℕ) (scores : List ℚ) :
    suppressStep iouThr (suppressStep iouThr boxes classes scores).1
        (suppressStep iouThr boxes classes scores).2.1
        (suppressStep iouThr boxes classes scores).2.2
      = suppressStep iouThr boxes classes scores := by
  show ((nms iouThr ((nms iouThr boxes scores).map (fun i => boxes.getD i default))
          ((nms iouThr boxes scores).map (fun i => scores.getD i 0))).map
            (fun i => ((nms iouThr boxes scores).map
              (fun j => boxes.getD j default)).getD i default),
        (nms iouThr ((nms iouThr boxes scores).map (fun i => boxes.getD i default))
          ((nms iouThr boxes scores).map (fun i => scores.getD i 0))).map
            (fun i => ((nms iouThr boxes scores).map
              (fun j => classes.getD j 0)).getD i 0),
        (nms iouThr ((nms iouThr boxes scores).map (fun i => boxes.getD i default))
          ((nms iouThr boxes scores).map (fun i => scores.getD i 0))).map
            (fun i => ((nms iouThr boxes scores).map
              (fun j => scores.getD j 0)).getD i 0))
      = ((nms iouThr boxes scores).map (fun j => boxes.getD j default),
         (nms iouThr boxes scores).map (fun j => classes.getD j 0),
         (nms iouThr boxes scores).map (fun j => scores.getD j 0))
  rw [nms_of_own_output iouThr boxes scores]
  refine congrArg₂ Prod.mk ?_ (congrArg₂ Prod.mk ?_ ?_)
  · exact map_getD_of_length _ _ _ (List.length_map _ _).symm
  · exact map_getD_of_length _ _ _ (List.length_map _ _).symm
  · exact map_getD_of_length _ _ _ (List.length_map _ _).symm

/-- Claim C10: the three sequences returned by `PostProcess.__call__` have
one common length `n ≤ Q`, and each output position carries the box, class
and score of a single originating query, so the sequences stay in lock-step
through thresholding and suppression. -/
theorem claim_C10 (E : ℚ → ℚ) (thr iouThr : ℚ) (Q nCls : ℕ) (pboxes : ℕ → Box)
    (logits : ℕ → ℕ → ℚ) :
    ∃ origins : List ℕ,
      origins.length ≤ Q
        ∧ (∀ i ∈ origins, i < Q)
        ∧ (postProcess E thr iouThr Q nCls pboxes logits).1 = origins.map pboxes
        ∧ (postProcess E thr iouThr Q nCls pboxes logits).2.1
            = origins.map (fun q => qClass E nCls (logits q))
        ∧ (postProcess E thr iouThr Q nCls pboxes logits).2.2
            = origins.map (fun q => qScore E nCls (logits q)) := by
  refine ⟨(nms iouThr ((keepIdx E thr Q nCls logits).map pboxes)
      ((keepIdx E thr Q nCls logits).map (fun q2 => qScore E nCls (logits q2)))).map
        (fun i => (keepIdx E thr Q nCls logits).getD i 0), ?_, ?_, ?_, ?_, ?_⟩
  · rw [List.length_map]
    have h1 := nms_length_le iouThr ((keepIdx E thr Q nCls logits).map pboxes)
      ((keepIdx E thr Q nCls logits).map (fun q2 => qScore E nCls (logits q2)))
    rw [List.length_map] at h1
    have h2 : (keepIdx E thr Q nCls logits).length ≤ Q := by
      unfold keepIdx
      calc ((List.range Q).filter _).length
          ≤ (List.range Q).length := List.length_filter_le _ _
        _ = Q := List.length_range Q
    exact le_trans h1 h2
  · intro i hi
    rcases List.mem_map.mp hi with ⟨j, hj, he⟩
    have hjlt : j < (keepIdx E thr Q nCls logits).length := by
      have h3 := mem_nms_lt iouThr _ _ j hj
      rwa [List.length_map] at h3
    have hmem : (keepIdx E thr Q nCls logits).getD j 0 ∈ keepIdx E thr Q nCls logits := by
      rw [List.getD_eq_getElem _ _ hjlt]
      exact List.getElem_mem hjlt
    rw [← he]
    unfold keepIdx at hmem
    exact List.mem_range.mp (List.mem_of_mem_filter hmem)
  · show (nms iouThr ((keepIdx E thr Q nCls logits).map pboxes)
        ((keepIdx E thr Q nCls logits).map (fun q2 => qScore E nCls (logits q2)))).map
          (fun i => ((keepIdx E thr Q nCls logits).map pboxes).getD i default) = _
    rw [List.map_map]
    apply List.map_congr_left
    intro i hi
    have hlt : i < (keepIdx E thr Q nCls logits).length := by
      have h3 := mem_nms_lt iouThr _ _ i hi
      rwa [List.length_map] at h3
    exact getD_map_lt pboxes _ default 0 hlt
  · show (nms iouThr ((keepIdx E thr Q nCls logits).map pboxes)
        ((keepIdx E thr Q nCls logits).map (fun q2 => qScore E nCls (logits q2)))).map
          (fun i => ((keepIdx E thr Q nCls logits).map
            (fun q2 => qClass E nCls (logits q2))).getD i 0) = _
    rw [List.map_map]
    apply List.map_congr_left
    intro i hi
    have hlt : i < (keepIdx E thr Q nCls logits).length := by
      have h3 := mem_nms_lt iouThr _ _ i hi
      rwa [List.length_map] at h3
    exact getD_map_lt (fun q2 => qClass E nCls (logits q2)) _ 0 0 hlt
  · show (nms iouThr ((keepIdx E thr Q nCls logits).map pboxes)
        ((keepIdx E thr Q nCls logits).map (fun q2 => qScore E nCls (logits q2)))).map
          (fun i => ((keepIdx E thr Q nCls logits).map
            (fun q2 => qScore E nCls (logits q2))).getD i 0) = _
    rw [List.map_map]
    apply List.map_congr_left
    intro i hi
    have hlt : i < (keepIdx E thr Q nCls logits).length := by
      have h3 := mem_nms_lt iouThr _ _ i hi
      rwa [List.length_map] at h3
    exact getD_map_lt (fun q2 => qScore E nCls (logits q2)) _ 0 0 hlt

/-! ### Concrete evaluations and witnesses -/

theorem lsa_two (cost : ℕ → ℕ → ℚ)
    (hlt : totalCost cost [(0, 0), (1, 1)] < totalCost cost [(0, 1), (1, 0)]) :
    linear_sum_assignment cost 2 2 = [(0, 0), (1, 1)] := by
  have hcand : candidates 2 2 = [[(0, 1), (1, 0)], [(0, 0), (1, 1)]] := by decide
  unfold linear_sum_assignment
  rw [hcand]
  show (if totalCost cost [(0, 0), (1, 1)] < totalCost cost [(0, 1), (1, 0)]
      then [(0, 0), (1, 1)] else [(0, 1), (1, 0)]) = [(0, 0), (1, 1)]
  rw [if_pos hlt]

/-- On the crafted inputs whose cost block is `[[1, 5], [5, 1]]` (weights
`(0, 1, 0)`, so the block is pure L1 distance), `forward` returns the
assignment `[(0, 0), (1, 1)]` of total cost 2. -/
theorem c1_forward_eval :
    matcherForward (fun _ => 1) 0 1 0
      (MatcherInput.mk 1 2 1 (fun _ _ _ => 0)
        (fun _ q => if q = 0 then Box.mk 0 0 1 2 else Box.mk 0 0 1 6))
      [Target.mk [0, 0] [Box.mk 0 0 1 1, Box.mk 0 0 1 7]]
      = some [[(0, 0), (1, 1)]] := by
  rw [matcherForward_some _ _ _ _ _ _ (by decide) (by decide)]
  have hrange : List.range ([Target.mk [0, 0] [Box.mk 0 0 1 1, Box.mk 0 0 1 7]].length)
      = [0] := by decide
  rw [hrange, List.map_cons, List.map_nil]
  simp only [Option.some.injEq, List.cons.injEq, and_true]
  apply lsa_two
  have hb1 : [Box.mk 0 0 1 1, Box.mk 0 0 1 7][1] = Box.mk 0 0 1 7 := rfl
  have hb0 : [Box.mk 0 0 1 1, Box.mk 0 0 1 7][0] = Box.mk 0 0 1 1 := rfl
  norm_num [totalCost, costBlock, costFlat, out_bbox, out_prob, tgt_bbox, tgt_ids,
    tgtOffset, softmaxE, l1Dist, giouVal, iouVal, interVal, unionVal, box_area,
    List.getElem_cons_zero, List.getElem_cons_succ, List.getD_cons_zero,
    List.getD_cons_succ, hb0, hb1]

/-- Witness for claim C1 at the cost block `[[1, 5], [5, 1]]`: the returned
assignment is `[(0, 0), (1, 1)]`, and it is a valid matching of size 2
whose cost is at most that of the alternative `[(0, 1), (1, 0)]`. -/
theorem claim_C1_witness :
    (matcherForward (fun _ => 1) 0 1 0
        (MatcherInput.mk 1 2 1 (fun _ _ _ => 0)
          (fun _ q => if q = 0 then Box.mk 0 0 1 2 else Box.mk 0 0 1 6))
        [Target.mk [0, 0] [Box.mk 0 0 1 1, Box.mk 0 0 1 7]]
      = some [[(0, 0), (1, 1)]])
    ∧ (∃ res, matcherForward (fun _ => 1) 0 1 0
          (MatcherInput.mk 1 2 1 (fun _ _ _ => 0)
            (fun _ q => if q = 0 then Box.mk 0 0 1 2 else Box.mk 0 0 1 6))
          [Target.mk [0, 0] [Box.mk 0 0 1 1, Box.mk 0 0 1 7]] = some res
        ∧ IsMatching 2 2 (res.getD 0 [])
        ∧ (res.getD 0 []).length = min 2 2
        ∧ totalCost (costBlock (fun _ => 1) 0 1 0
              (MatcherInput.mk 1 2 1 (fun _ _ _ => 0)
                (fun _ q => if q = 0 then Box.mk 0 0 1 2 else Box.mk 0 0 1 6))
              [Target.mk [0, 0] [Box.mk 0 0 1 1, Box.mk 0 0 1 7]] 0) (res.getD 0 [])
            ≤ totalCost (costBlock (fun _ => 1) 0 1 0
              (MatcherInput.mk 1 2 1 (fun _ _ _ => 0)
                (fun _ q => if q = 0 then Box.mk 0 0 1 2 else Box.mk 0 0 1 6))
              [Target.mk [0, 0] [Box.mk 0 0 1 1, Box.mk 0 0 1 7]] 0) [(0, 1), (1, 0)]) :=
  ⟨c1_forward_eval,
   claim_C1 (fun _ => 1) 0 1 0
     (MatcherInput.mk 1 2 1 (fun _ _ _ => 0)
       (fun _ q => if q = 0 then Box.mk 0 0 1 2 else Box.mk 0 0 1 6))
     [Target.mk [0, 0] [Box.mk 0 0 1 1, Box.mk 0 0 1 7]] 0 [(0, 1), (1, 0)]
     (by decide) (by decide) (by decide) (by decide) (by decide)⟩

/-- Witness for claim C2 on a 2-element batch, read at batch element 1. -/
theorem claim_C2_witness :
    (([Target.mk [0] [Box.mk 0 0 1 1], Target.mk [1] [Box.mk 0 0 2 2]] : List Target).length
        = (MatcherInput.mk 2 1 2 (fun _ _ _ => 0) (fun _ _ => Box.mk 0 0 1 1)).B)
    ∧ costBlock (fun _ => 1) 1 1 1
        (MatcherInput.mk 2 1 2 (fun _ _ _ => 0) (fun _ _ => Box.mk 0 0 1 1))
        [Target.mk [0] [Box.mk 0 0 1 1], Target.mk [1] [Box.mk 0 0 2 2]] 1 0 0
      = 1 * l1Dist (Box.mk 0 0 1 1) (Box.mk 0 0 2 2)
        + 1 * (-(softmaxE (fun _ => 1) 2 (fun _ => 0) 1))
        + 1 * (-(giouVal (Box.mk 0 0 1 1) (Box.mk 0 0 2 2))) :=
  ⟨by decide,
   claim_C2 (fun _ => 1) 1 1 1
     (MatcherInput.mk 2 1 2 (fun _ _ _ => 0) (fun _ _ => Box.mk 0 0 1 1))
     [Target.mk [0] [Box.mk 0 0 1 1], Target.mk [1] [Box.mk 0 0 2 2]] 1 0 0
     (by decide) (by decide) (by decide) (by decide) (by decide)⟩

/-- Witness for claim C3 with two classes (one real class plus
background). -/
theorem claim_C3_witness :
    (2 ≤ 2)
    ∧ ((0 ∈ keepIdx (fun _ => 1) 0 1 2 (fun _ _ => 0)
          ↔ 0 < 1 ∧ 0 < qScore (fun _ => 1) 2 (fun _ => (0 : ℚ)))
        ∧ qClass (fun _ => 1) 2 (fun _ => (0 : ℚ)) < 2 - 1
        ∧ softmaxE (fun _ => 1) 2 (fun _ => (0 : ℚ))
            (qClass (fun _ => 1) 2 (fun _ => (0 : ℚ)))
          = qScore (fun _ => 1) 2 (fun _ => (0 : ℚ))
        ∧ ∀ j < 2 - 1, softmaxE (fun _ => 1) 2 (fun _ => (0 : ℚ)) j
            ≤ qScore (fun _ => 1) 2 (fun _ => (0 : ℚ))) :=
  ⟨by decide, claim_C3 (fun _ => 1) 0 1 2 (fun _ _ => 0) 0 (by decide)⟩

/-- Witness for claim C4: a batch element with `Q = 5` queries and no
ground-truth boxes gets the empty assignment, without error. -/
theorem claim_C4_witness :
    (forwardCheck (MatcherInput.mk 1 5 1 (fun _ _ _ => 0) (fun _ _ => Box.mk 0 0 0 0))
        [Target.mk [] []] = true)
    ∧ (∃ res, matcherForward (fun _ => 1) 1 1 1
          (MatcherInput.mk 1 5 1 (fun _ _ _ => 0) (fun _ _ => Box.mk 0 0 0 0))
          [Target.mk [] []] = some res
        ∧ res.getD 0 [] = []) :=
  ⟨by decide,
   claim_C4 (fun _ => 1) 1 1 1
     (MatcherInput.mk 1 5 1 (fun _ _ _ => 0) (fun _ _ => Box.mk 0 0 0 0))
     [Target.mk [] []] 0 (by decide) (by decide) (by decide) (by decide)⟩

/-- Witness for claim C8 at thresholds 0 ≤ 1 on a one-query input. -/
theorem claim_C8_witness :
    ((0 : ℚ) ≤ 1)
    ∧ (postProcess (fun _ => 1) 1 (3/10) 1 2 (fun _ => Box.mk 0 0 1 1)
          (fun _ _ => 0)).1.length
        ≤ (postProcess (fun _ => 1) 0 (3/10) 1 2 (fun _ => Box.mk 0 0 1 1)
          (fun _ _ => 0)).1.length :=
  ⟨by decide,
   claim_C8 (fun _ => 1) 0 1 (3/10) 1 2 (fun _ => Box.mk 0 0 1 1) (fun _ _ => 0)
     (by decide)⟩
